import Mathlib

/-!
Verification of the AVL tree set implementation (src/lib.rs).

The Rust type `AvlTree<T> = Option<Box<AvlNode<T>>>` is embedded as a single
inductive: `nil` stands for `None` and `node value left right height` for
`Some(Box::new(AvlNode { value, left, right, height }))`.  Machine integers:
`height: usize` becomes `Nat`; the `as i8` casts in `balance_factor` are
modelled explicitly as wrap-around on the low 8 bits (`castI8`, `negI8`).
Fallible code (the `unwrap()` calls in `rebalance`) returns `Option`.
-/

set_option maxRecDepth 10000

namespace AvlVerify

inductive AvlTree (T : Type) : Type where
  | nil : AvlTree T
  | node (value : T) (left : AvlTree T) (right : AvlTree T) (height : Nat) : AvlTree T
deriving DecidableEq, Repr

namespace AvlTree

variable {T : Type}

/-- `left_height` / `right_height`: cached height of a child tree, 0 when absent
(`self.left.as_ref().map_or(0, |left| left.height)`). -/
def heightOf : AvlTree T → Nat
  | nil => 0
  | node _ _ _ h => h

/-- The left child of a node (`nil` for the empty tree, an artifact case). -/
def leftOf : AvlTree T → AvlTree T
  | nil => nil
  | node _ l _ _ => l

/-- The right child of a node (`nil` for the empty tree, an artifact case). -/
def rightOf : AvlTree T → AvlTree T
  | nil => nil
  | node _ _ r _ => r

/-- `update_height`: `self.height = max(self.left_height(), self.right_height()) + 1`. -/
def updateHeight : AvlTree T → AvlTree T
  | nil => nil
  | node v l r _ => node v l r (max (heightOf l) (heightOf r) + 1)

/-- Truncating cast of a `usize` value to `i8` (`as i8` in Rust): the low 8 bits
read as a two's-complement signed byte. -/
def castI8 (n : Nat) : Int :=
  if n % 256 < 128 then (n % 256 : Int) else (n % 256 : Int) - 256

/-- Wrapping `i8` negation (the unary `-` applied to the cast result). -/
def negI8 (x : Int) : Int :=
  if x = -128 then -128 else -x

/-- `balance_factor`: `(left_height - right_height) as i8` when the left side is
at least as high, otherwise `-((right_height - left_height) as i8)`. -/
def balanceFactor : AvlTree T → Int
  | nil => 0
  | node _ l r _ =>
      let lh := heightOf l
      let rh := heightOf r
      if rh ≤ lh then castI8 (lh - rh) else negI8 (castI8 (rh - lh))

/-- `rotate_left`: returns `false` and leaves the node unchanged when there is no
right child; otherwise relinks (the value swap plus subtree moves of the source
amount to this shape), updates the new left child's height and then the root's,
and returns `true`. -/
def rotateLeft : AvlTree T → AvlTree T × Bool
  | nil => (nil, false)
  | node v l nil h => (node v l nil h, false)
  | node v l (node rv rl rr rh) h =>
      (updateHeight (node rv (updateHeight (node v l rl rh)) rr h), true)

/-- `rotate_right`: mirror image of `rotate_left` over the left child. -/
def rotateRight : AvlTree T → AvlTree T × Bool
  | nil => (nil, false)
  | node v nil r h => (node v nil r h, false)
  | node v (node lv ll lr lh) r h =>
      (updateHeight (node lv ll (updateHeight (node v lr r lh)) h), true)

/-- `rebalance`: dispatch on `balance_factor()`.  `none` models the panic of the
`unwrap()` on a missing child in the `-2` / `2` branches.  The boolean results of
the inner rotations are discarded, as in the source. -/
def rebalance : AvlTree T → Option (AvlTree T × Bool)
  | nil => some (nil, false)
  | node v l r h =>
      let bf := balanceFactor (node v l r h)
      if bf = -2 then
        match r with
        | nil => none
        | node rv rl rr rh =>
            let r2 := if balanceFactor (node rv rl rr rh) = 1
                      then (rotateRight (node rv rl rr rh)).1
                      else node rv rl rr rh
            some ((rotateLeft (node v l r2 h)).1, true)
      else if bf = 2 then
        match l with
        | nil => none
        | node lv ll lr lh =>
            let l2 := if balanceFactor (node lv ll lr lh) = -1
                      then (rotateLeft (node lv ll lr lh)).1
                      else node lv ll lr lh
            some ((rotateRight (node v l2 r h)).1, true)
      else some (node v l r h, false)

/-- `AvlTreeSet::insert`: walk down comparing `current_node.value.cmp(&value)`
(`Less` → right, `Equal` → return `false`, `Greater` → left); at an empty
position place a fresh leaf with height 0 and return `true`.  No height update
and no rebalancing happens on the way back up.  The pair is (resulting tree,
returned bool). -/
def insert [LinearOrder T] (x : T) : AvlTree T → AvlTree T × Bool
  | nil => (node x nil nil 0, true)
  | node v l r h =>
      match compare v x with
      | Ordering.lt =>
          let p := insert x r
          (node v l p.1 h, p.2)
      | Ordering.eq => (node v l r h, false)
      | Ordering.gt =>
          let p := insert x l
          (node v p.1 r h, p.2)

/-- `FromIterator for AvlTreeSet`: start from the empty set and `insert` each
element in sequence order, discarding the boolean results. -/
def fromList [LinearOrder T] (l : List T) : AvlTree T :=
  l.foldl (fun t x => (insert x t).1) nil

/-- Modelled from the spec: the naive recursive in-order walk
(left subtree, self, right subtree), the reference the iterator is compared
against. -/
def inorder : AvlTree T → List T
  | nil => []
  | node v l r _ => inorder l ++ v :: inorder r

/-- Number of nodes. -/
def size : AvlTree T → Nat
  | nil => 0
  | node _ l r _ => size l + size r + 1

/-- One call to `AvlTreeSetIter::next`.  The state is the explicit ancestor
stack `prev_nodes` (innermost first) together with `current_tree`; the internal
`loop` that pushes left children without yielding is the recursive call.
Returns the yielded value and the successor state, or `none` when exhausted.
A `nil` stack entry never occurs in reachable states; popping one is mapped to
`none` (artifact case). -/
def iterNext : List (AvlTree T) → AvlTree T → Option (T × (List (AvlTree T) × AvlTree T))
  | stack, nil =>
      match stack with
      | [] => none
      | nil :: _ => none
      | node v _ r _ :: rest => some (v, (rest, r))
  | stack, node v nil nil _ => some (v, (stack, nil))
  | stack, node v nil (node rv rl rr rh) _ =>
      some (v, (stack, node rv rl rr rh))
  | stack, node v (node lv ll lr lh) r h =>
      iterNext (node v (node lv ll lr lh) r h :: stack) (node lv ll lr lh)

/-- Drive the iterator for at most `fuel` calls to `next`, collecting the
yielded values.  (`iterRunF` is total; enough fuel reaches exhaustion, which the
lemmas below establish.) -/
def iterRunF : Nat → List (AvlTree T) → AvlTree T → List T
  | 0, _, _ => []
  | fuel + 1, stack, t =>
      match iterNext stack t with
      | none => []
      | some (v, (s2, t2)) => v :: iterRunF fuel s2 t2

/-- `AvlTreeSet::iter().collect()`: run the iterator from the initial state
(empty stack, cursor at the root) to exhaustion.  `size t + 1` calls always
suffice, since every `next` but the last yields a distinct node's value. -/
def iterAll (t : AvlTree T) : List T :=
  iterRunF (size t + 1) [] t

/-- The sequence the iterator still owes for a given ancestor stack: for each
pending node, its own value followed by the in-order walk of its right subtree
(a `nil` entry, which never occurs in reachable states, owes nothing). -/
def emitStack : List (AvlTree T) → List T
  | [] => []
  | nil :: rest => emitStack rest
  | node v _ r _ :: rest => v :: (inorder r ++ emitStack rest)

/-- All values in the tree satisfy the boolean predicate. -/
def forallTree (p : T → Bool) : AvlTree T → Bool
  | nil => true
  | node v l r _ => p v && forallTree p l && forallTree p r

/-- The BST-order invariant: at every node, all values on the left are smaller
and all values on the right are larger. -/
def isBST [LinearOrder T] : AvlTree T → Bool
  | nil => true
  | node v l r _ =>
      forallTree (fun a => decide (a < v)) l && forallTree (fun a => decide (v < a)) r
        && isBST l && isBST r

/-- The true height of a subtree in the spec's convention: 0 for an absent
tree, 0 for a leaf (no children), and `1 + max(child heights)` otherwise with
an absent child contributing 0. -/
def trueHeight : AvlTree T → Nat
  | nil => 0
  | node _ nil nil _ => 0
  | node _ l r _ => max (trueHeight l) (trueHeight r) + 1

/-- Every node's cached `height` field equals the true height of its subtree. -/
def heightsCorrect : AvlTree T → Bool
  | nil => true
  | node v l r h =>
      (h == trueHeight (node v l r h)) && heightsCorrect l && heightsCorrect r

/-- The AVL balance bound on true heights: at every node the two child subtree
heights differ by at most 1. -/
def isAvlBalanced : AvlTree T → Bool
  | nil => true
  | node _ l r _ =>
      (decide (trueHeight l ≤ trueHeight r + 1) && decide (trueHeight r ≤ trueHeight l + 1))
        && isAvlBalanced l && isAvlBalanced r

/-- A direction taken while descending from the root. -/
inductive Dir : Type where
  | L : Dir
  | R : Dir
deriving DecidableEq, Repr

/-- The subtree sitting at the end of a root path, when the path stays inside
the tree (descending below an empty tree gives `none`). -/
def subtreeAt : AvlTree T → List Dir → Option (AvlTree T)
  | t, [] => some t
  | nil, _ :: _ => none
  | node _ l _ _, Dir.L :: p => subtreeAt l p
  | node _ _ r _, Dir.R :: p => subtreeAt r p

/-- The value and cached height of the node at a root path, if a node is there. -/
def nodeInfoAt : AvlTree T → List Dir → Option (T × Nat)
  | nil, _ => none
  | node v _ _ h, [] => some (v, h)
  | node _ l _ _, Dir.L :: p => nodeInfoAt l p
  | node _ _ r _, Dir.R :: p => nodeInfoAt r p

/-- The path the binary-search walk of `insert` takes for `x`: right on `lt`,
left on `gt`, stopping at an equal value or an empty position. -/
def searchPath [LinearOrder T] (x : T) : AvlTree T → List Dir
  | nil => []
  | node v l r _ =>
      match compare v x with
      | Ordering.lt => Dir.R :: searchPath x r
      | Ordering.eq => []
      | Ordering.gt => Dir.L :: searchPath x l

/-- Replace the subtree at the end of a root path, leaving every node on the
path (value, cached height, off-path child) and everything off the path
untouched. -/
def replaceAt : AvlTree T → List Dir → AvlTree T → AvlTree T
  | _, [], s => s
  | nil, _ :: _, _ => nil
  | node v l r h, Dir.L :: p, s => node v (replaceAt l p s) r h
  | node v l r h, Dir.R :: p, s => node v l (replaceAt r p s) h

/-- A left chain of `n` nodes whose cached heights are all correct: the node on
top of `chainL n` caches height `n - 1`. -/
def chainL : Nat → AvlTree Nat
  | 0 => nil
  | n + 1 => node 0 (chainL n) nil n

section BstLemmas

variable [LinearOrder T]

theorem mem_inorder_insert (x a : T) (t : AvlTree T) :
    a ∈ inorder (insert x t).1 ↔ a = x ∨ a ∈ inorder t := by
  induction t with
  | nil => simp [insert, inorder]
  | node v l r h ihl ihr =>
      cases hc : compare v x with
      | lt =>
          simp only [insert, hc, inorder, List.mem_append, List.mem_cons, ihr]
          tauto
      | eq =>
          have hv : v = x := compare_eq_iff_eq.mp hc
          subst hv
          simp only [insert, hc, inorder, List.mem_append, List.mem_cons]
          tauto
      | gt =>
          simp only [insert, hc, inorder, List.mem_append, List.mem_cons, ihl]
          tauto

omit [LinearOrder T] in
theorem forallTree_mem (p : T → Bool) (t : AvlTree T) (ht : forallTree p t = true)
    (a : T) (ha : a ∈ inorder t) : p a = true := by
  induction t with
  | nil => simp [inorder] at ha
  | node v l r h ihl ihr =>
      simp only [forallTree, Bool.and_eq_true] at ht
      simp only [inorder, List.mem_append, List.mem_cons] at ha
      rcases ha with ha | ha | ha
      · exact ihl ht.1.2 ha
      · exact ha ▸ ht.1.1
      · exact ihr ht.2 ha

theorem forallTree_insert (p : T → Bool) (x : T) (t : AvlTree T)
    (ht : forallTree p t = true) (hx : p x = true) :
    forallTree p (insert x t).1 = true := by
  induction t with
  | nil => simpa [insert, forallTree] using hx
  | node v l r h ihl ihr =>
      simp only [forallTree, Bool.and_eq_true] at ht
      cases hc : compare v x with
      | lt =>
          simp only [insert, hc, forallTree, Bool.and_eq_true]
          exact ⟨⟨ht.1.1, ht.1.2⟩, ihr ht.2⟩
      | eq =>
          simp only [insert, hc, forallTree, Bool.and_eq_true]
          exact ⟨⟨ht.1.1, ht.1.2⟩, ht.2⟩
      | gt =>
          simp only [insert, hc, forallTree, Bool.and_eq_true]
          exact ⟨⟨ht.1.1, ihl ht.1.2⟩, ht.2⟩

theorem isBST_insert (x : T) (t : AvlTree T) (ht : isBST t = true) :
    isBST (insert x t).1 = true := by
  induction t with
  | nil => simp [insert, isBST, forallTree]
  | node v l r h ihl ihr =>
      simp only [isBST, Bool.and_eq_true] at ht
      cases hc : compare v x with
      | lt =>
          have hvx : v < x := compare_lt_iff_lt.mp hc
          simp only [insert, hc, isBST, Bool.and_eq_true]
          exact ⟨⟨⟨ht.1.1.1, forallTree_insert _ _ _ ht.1.1.2 (by simpa using hvx)⟩,
            ht.1.2⟩, ihr ht.2⟩
      | eq =>
          simp only [insert, hc, isBST, Bool.and_eq_true]
          exact ⟨⟨⟨ht.1.1.1, ht.1.1.2⟩, ht.1.2⟩, ht.2⟩
      | gt =>
          have hxv : x < v := compare_gt_iff_gt.mp hc
          simp only [insert, hc, isBST, Bool.and_eq_true]
          exact ⟨⟨⟨forallTree_insert _ _ _ ht.1.1.1 (by simpa using hxv), ht.1.1.2⟩,
            ihl ht.1.2⟩, ht.2⟩

theorem pairwise_lt_inorder (t : AvlTree T) (ht : isBST t = true) :
    List.Pairwise (· < ·) (inorder t) := by
  induction t with
  | nil => simp [inorder]
  | node v l r h ihl ihr =>
      simp only [isBST, Bool.and_eq_true] at ht
      simp only [inorder, List.pairwise_append, List.pairwise_cons]
      refine ⟨ihl ht.1.2, ⟨?_, ihr ht.2⟩, ?_⟩
      · intro b hb
        simpa using forallTree_mem _ _ ht.1.1.2 b hb
      · intro a ha b hb
        have hav : a < v := by simpa using forallTree_mem _ _ ht.1.1.1 a ha
        rcases List.mem_cons.mp hb with hb | hb
        · exact hb ▸ hav
        · have hvb : v < b := by simpa using forallTree_mem _ _ ht.1.1.2 b hb
          exact hav.trans hvb

theorem insert_snd_true_of_not_mem (x : T) (t : AvlTree T)
    (h : x ∉ inorder t) : (insert x t).2 = true := by
  induction t with
  | nil => simp [insert]
  | node v l r hh ihl ihr =>
      simp only [inorder, List.mem_append, List.mem_cons] at h
      push_neg at h
      cases hc : compare v x with
      | lt => simpa [insert, hc] using ihr h.2.2
      | eq => exact absurd (compare_eq_iff_eq.mp hc).symm h.2.1
      | gt => simpa [insert, hc] using ihl h.1

theorem insert_eq_of_mem (x : T) (t : AvlTree T)
    (ht : isBST t = true) (h : x ∈ inorder t) : insert x t = (t, false) := by
  induction t with
  | nil => simp [inorder] at h
  | node v l r hh ihl ihr =>
      simp only [isBST, Bool.and_eq_true] at ht
      simp only [inorder, List.mem_append, List.mem_cons] at h
      cases hc : compare v x with
      | lt =>
          have hvx : v < x := compare_lt_iff_lt.mp hc
          have hxr : x ∈ inorder r := by
            rcases h with h | h | h
            · exact absurd hvx (by
                have := forallTree_mem _ _ ht.1.1.1 x h
                simp only [decide_eq_true_eq] at this
                exact not_lt_of_gt this)
            · exact absurd hvx (h ▸ lt_irrefl x)
            · exact h
          simp [insert, hc, ihr ht.2 hxr]
      | eq => simp [insert, hc]
      | gt =>
          have hxv : x < v := compare_gt_iff_gt.mp hc
          have hxl : x ∈ inorder l := by
            rcases h with h | h | h
            · exact h
            · exact absurd hxv (h ▸ lt_irrefl x)
            · exact absurd hxv (by
                have := forallTree_mem _ _ ht.1.1.2 x h
                simp only [decide_eq_true_eq] at this
                exact not_lt_of_gt this)
          simp [insert, hc, ihl ht.1.2 hxl]

theorem isBST_fromList_aux (l : List T) (t : AvlTree T) (ht : isBST t = true) :
    isBST (l.foldl (fun t x => (insert x t).1) t) = true := by
  induction l generalizing t with
  | nil => exact ht
  | cons a l ih => exact ih _ (isBST_insert a t ht)

theorem isBST_fromList (l : List T) : isBST (fromList l) = true :=
  isBST_fromList_aux l nil rfl

theorem mem_inorder_foldl (l : List T) (t : AvlTree T) (a : T) :
    a ∈ inorder (l.foldl (fun t x => (insert x t).1) t) ↔ a ∈ l ∨ a ∈ inorder t := by
  induction l generalizing t with
  | nil => simp
  | cons b l ih =>
      simp only [List.foldl_cons, ih, mem_inorder_insert, List.mem_cons]
      tauto

theorem mem_inorder_fromList (l : List T) (a : T) :
    a ∈ inorder (fromList l) ↔ a ∈ l := by
  simpa [fromList, inorder] using mem_inorder_foldl l nil a

theorem eq_of_pairwise_lt_of_mem_iff :
    ∀ (l1 l2 : List T), List.Pairwise (· < ·) l1 → List.Pairwise (· < ·) l2 →
      (∀ a, a ∈ l1 ↔ a ∈ l2) → l1 = l2 := by
  intro l1
  induction l1 with
  | nil =>
      intro l2 _ _ hm
      cases l2 with
      | nil => rfl
      | cons b l2 => exact absurd ((hm b).mpr (List.mem_cons_self b l2)) (List.not_mem_nil b)
  | cons a l1 ih =>
      intro l2 h1 h2 hm
      cases l2 with
      | nil => exact absurd ((hm a).mp (List.mem_cons_self a l1)) (List.not_mem_nil a)
      | cons b l2 =>
          simp only [List.pairwise_cons] at h1 h2
          have hab : a = b := by
            rcases List.mem_cons.mp ((hm a).mp (List.mem_cons_self a l1)) with h | h
            · exact h
            · rcases List.mem_cons.mp ((hm b).mpr (List.mem_cons_self b l2)) with h' | h'
              · exact h'.symm
              · exact absurd (h2.1 a h) (not_lt_of_gt (h1.1 b h'))
          subst hab
          have htails : ∀ c, c ∈ l1 ↔ c ∈ l2 := by
            intro c
            constructor
            · intro hc
              rcases List.mem_cons.mp ((hm c).mp (List.mem_cons_of_mem a hc)) with h | h
              · exact absurd (h1.1 c hc) (h ▸ lt_irrefl c)
              · exact h
            · intro hc
              rcases List.mem_cons.mp ((hm c).mpr (List.mem_cons_of_mem a hc)) with h | h
              · exact absurd (h2.1 c hc) (h ▸ lt_irrefl c)
              · exact h
          rw [ih l2 h1.2 h2.2 htails]

end BstLemmas

section IterLemmas

theorem iterNext_spec (t : AvlTree T) :
    ∀ stack, (∀ e ∈ stack, e ≠ nil) →
      (inorder t ++ emitStack stack = [] ∧ iterNext stack t = none) ∨
      (∃ v s2 t2, iterNext stack t = some (v, (s2, t2)) ∧
        (∀ e ∈ s2, e ≠ nil) ∧
        inorder t ++ emitStack stack = v :: (inorder t2 ++ emitStack s2)) := by
  induction t with
  | nil =>
      intro stack hv
      match stack with
      | [] => exact Or.inl ⟨by simp [inorder, emitStack], by simp [iterNext]⟩
      | nil :: rest => exact absurd rfl (hv nil (List.mem_cons_self _ _))
      | node w wl wr wh :: rest =>
          refine Or.inr ⟨w, rest, wr, by simp [iterNext], ?_, by simp [inorder, emitStack]⟩
          exact fun e he => hv e (List.mem_cons_of_mem _ he)
  | node v l r h ihl ihr =>
      intro stack hv
      match l with
      | nil =>
          match r with
          | nil =>
              exact Or.inr ⟨v, stack, nil, by simp [iterNext], hv, by simp [inorder, emitStack]⟩
          | node rv rl rr rh =>
              exact Or.inr ⟨v, stack, node rv rl rr rh, by simp [iterNext], hv,
                by simp [inorder, emitStack]⟩
      | node lv ll lr lh =>
          have hv2 : ∀ e ∈ node v (node lv ll lr lh) r h :: stack, e ≠ nil := by
            intro e he
            rcases List.mem_cons.mp he with he | he
            · subst he; exact fun hcon => AvlTree.noConfusion hcon
            · exact hv e he
          have hstep : iterNext stack (node v (node lv ll lr lh) r h)
              = iterNext (node v (node lv ll lr lh) r h :: stack) (node lv ll lr lh) := by
            simp [iterNext]
          have hemit : inorder (node v (node lv ll lr lh) r h) ++ emitStack stack
              = inorder (node lv ll lr lh)
                ++ emitStack (node v (node lv ll lr lh) r h :: stack) := by
            simp [inorder, emitStack]
          rcases ihl (node v (node lv ll lr lh) r h :: stack) hv2 with
            ⟨heq, _⟩ | ⟨w, s2, t2, hsome, hvs2, heq⟩
          · rw [emitStack] at heq
            exact absurd heq (by simp)
          · exact Or.inr ⟨w, s2, t2, hstep ▸ hsome, hvs2, by rw [hemit, heq]⟩

theorem iterRunF_eq (fuel : Nat) :
    ∀ stack (t : AvlTree T), (∀ e ∈ stack, e ≠ nil) →
      (inorder t ++ emitStack stack).length < fuel →
      iterRunF fuel stack t = inorder t ++ emitStack stack := by
  induction fuel with
  | zero => exact fun stack t _ hlen => absurd hlen (Nat.not_lt_zero _)
  | succ fuel ih =>
      intro stack t hv hlen
      rcases iterNext_spec t stack hv with ⟨heq, hnone⟩ | ⟨v, s2, t2, hsome, hv2, heq⟩
      · rw [heq]
        simp [iterRunF, hnone]
      · rw [heq]
        simp only [iterRunF, hsome]
        congr 1
        apply ih s2 t2 hv2
        rw [heq] at hlen
        simpa using Nat.lt_of_succ_lt_succ hlen

theorem length_inorder (t : AvlTree T) : (inorder t).length = size t := by
  induction t with
  | nil => simp [inorder, size]
  | node v l r h ihl ihr => simp [inorder, size, ihl, ihr]; omega

theorem iterAll_eq_inorder (t : AvlTree T) : iterAll t = inorder t := by
  have h := iterRunF_eq (size t + 1) [] t (by simp)
    (by simp [emitStack, length_inorder])
  simpa [iterAll, emitStack] using h

end IterLemmas

section FrameLemmas

theorem insert_replaceAt [LinearOrder T] (x : T) (t : AvlTree T)
    (h : (insert x t).2 = true) :
    subtreeAt t (searchPath x t) = some nil ∧
      (insert x t).1 = replaceAt t (searchPath x t) (node x nil nil 0) := by
  induction t with
  | nil => exact ⟨rfl, rfl⟩
  | node v l r hh ihl ihr =>
      cases hc : compare v x with
      | lt =>
          have h2 : (insert x r).2 = true := by simpa [insert, hc] using h
          obtain ⟨h1, h3⟩ := ihr h2
          constructor
          · simpa [searchPath, hc, subtreeAt] using h1
          · simp [insert, hc, searchPath, replaceAt, h3]
      | eq => simp [insert, hc] at h
      | gt =>
          have h2 : (insert x l).2 = true := by simpa [insert, hc] using h
          obtain ⟨h1, h3⟩ := ihl h2
          constructor
          · simpa [searchPath, hc, subtreeAt] using h1
          · simp [insert, hc, searchPath, replaceAt, h3]

theorem nodeInfoAt_replaceAt (p : List Dir) :
    ∀ (t s : AvlTree T) (q : List Dir) (i : T × Nat),
      subtreeAt t p = some nil → nodeInfoAt t q = some i →
      nodeInfoAt (replaceAt t p s) q = some i := by
  induction p with
  | nil =>
      intro t s q i hsub hinfo
      simp only [subtreeAt, Option.some.injEq] at hsub
      subst hsub
      simp [nodeInfoAt] at hinfo
  | cons d p ih =>
      intro t s q i hsub hinfo
      cases t with
      | nil => simp [subtreeAt] at hsub
      | node v l r h =>
          cases d with
          | L =>
              simp only [subtreeAt] at hsub
              cases q with
              | nil => simpa [nodeInfoAt, replaceAt] using hinfo
              | cons e q2 =>
                  cases e with
                  | L =>
                      simp only [nodeInfoAt, replaceAt] at hinfo ⊢
                      exact ih l s q2 i hsub hinfo
                  | R => simpa [nodeInfoAt, replaceAt] using hinfo
          | R =>
              simp only [subtreeAt] at hsub
              cases q with
              | nil => simpa [nodeInfoAt, replaceAt] using hinfo
              | cons e q2 =>
                  cases e with
                  | L => simpa [nodeInfoAt, replaceAt] using hinfo
                  | R =>
                      simp only [nodeInfoAt, replaceAt] at hinfo ⊢
                      exact ih r s q2 i hsub hinfo

end FrameLemmas

section ChainAndCastLemmas

theorem trueHeight_chainL : ∀ n : Nat, trueHeight (chainL (n + 1)) = n := by
  intro n
  induction n with
  | zero => rfl
  | succ n ih =>
      have hnode : chainL (n + 2) = node 0 (chainL (n + 1)) nil (n + 1) := rfl
      have hnode2 : chainL (n + 1) = node 0 (chainL n) nil n := rfl
      rw [hnode, hnode2]
      rw [hnode2] at ih
      simp only [trueHeight] at ih ⊢
      omega

theorem heightsCorrect_chainL : ∀ n : Nat, heightsCorrect (chainL n) = true := by
  intro n
  induction n with
  | zero => rfl
  | succ n ih =>
      have hth : trueHeight (chainL (n + 1)) = n := trueHeight_chainL n
      have hnode : chainL (n + 1) = node 0 (chainL n) nil n := rfl
      rw [hnode] at hth ⊢
      simp [heightsCorrect, ih, hth]

theorem heightOf_chainL (n : Nat) : heightOf (chainL (n + 1)) = n := rfl

theorem castI8_eq_neg_two (n : Nat) : castI8 n = -2 ↔ n % 256 = 254 := by
  unfold castI8
  split <;> omega

theorem castI8_eq_two (n : Nat) : castI8 n = 2 ↔ n % 256 = 2 := by
  unfold castI8
  split <;> omega

theorem negI8_eq_neg_two (x : Int) : negI8 x = -2 ↔ x = 2 := by
  unfold negI8
  split <;> omega

theorem negI8_eq_two (x : Int) : negI8 x = 2 ↔ x = -2 := by
  unfold negI8
  split <;> omega

end ChainAndCastLemmas

/-- Claim C1, evidence of the code bug: the spec requires every set built by
inserts to satisfy the AVL balance bound, but `insert` in the source never
calls `update_height`/`rebalance`, so inserting `1, 2, 3, 4` builds a right
chain whose root's subtree heights differ by 2. -/
theorem claim1_balance_fails_on_code :
    isAvlBalanced (fromList ([1, 2, 3, 4] : List Nat)) = false := by decide

/-- Claim C2, evidence of the code bug: the spec requires every cached `height`
field to equal the true subtree height after every operation, but `insert`
never updates heights, so after inserting `1, 2` the root still caches height 0
while its true height is 1. -/
theorem claim2_heights_fail_on_code :
    heightsCorrect (fromList ([1, 2] : List Nat)) = false := by decide

/-- Claim C3: collecting any finite sequence (duplicates included) into the set
by repeated `insert` and then iterating yields exactly the reference
ordered-set result: the input deduplicated and sorted ascending. -/
theorem claim3_set_parity {T : Type} [LinearOrder T] (l : List T) :
    iterAll (fromList l) = List.insertionSort (· ≤ ·) l.dedup := by
  rw [iterAll_eq_inorder]
  apply eq_of_pairwise_lt_of_mem_iff
  · exact pairwise_lt_inorder _ (isBST_fromList l)
  · have hs : List.Sorted (· ≤ ·) (List.insertionSort (· ≤ ·) l.dedup) :=
      List.sorted_insertionSort _ _
    have hn : (List.insertionSort (· ≤ ·) l.dedup).Nodup :=
      ((List.perm_insertionSort _ _).nodup_iff).mpr (List.nodup_dedup l)
    exact hs.lt_of_le hn
  · intro a
    simp [mem_inorder_fromList, List.mem_dedup]

/-- Claim C4: inserting a value already present returns `false` and leaves the
tree completely unchanged, and inserting the same value twice changes the set
only on the first call — the second returns `false` with the tree identical. -/
theorem claim4_duplicate_insert_noop {T : Type} [LinearOrder T] (x : T) (t : AvlTree T)
    (ht : isBST t = true) :
    (x ∈ inorder t → insert x t = (t, false)) ∧
      insert x (insert x t).1 = ((insert x t).1, false) := by
  refine ⟨fun hm => insert_eq_of_mem x t ht hm, ?_⟩
  apply insert_eq_of_mem x _ (isBST_insert x t ht)
  rw [mem_inorder_insert]
  exact Or.inl rfl

/-- Witness for claim C4 at a concrete input. -/
theorem claim4_duplicate_insert_noop_witness :
    (insert (1 : Nat) (fromList [1, 2]) = (fromList [1, 2], false)) ∧
      insert (1 : Nat) (insert 1 (fromList [1, 2])).1
        = ((insert 1 (fromList [1, 2])).1, false) :=
  ⟨(claim4_duplicate_insert_noop 1 (fromList [1, 2]) (by decide)).1 (by decide),
   (claim4_duplicate_insert_noop 1 (fromList [1, 2]) (by decide)).2⟩

/-- Claim C5: `insert(x)` returns `true` exactly when `x` is not already a
member of the set. -/
theorem claim5_insert_return_parity {T : Type} [LinearOrder T] (x : T) (t : AvlTree T)
    (ht : isBST t = true) :
    (insert x t).2 = true ↔ x ∉ inorder t := by
  constructor
  · intro hs hm
    rw [insert_eq_of_mem x t ht hm] at hs
    simp at hs
  · exact insert_snd_true_of_not_mem x t

/-- Witness for claim C5 at a concrete input. -/
theorem claim5_insert_return_parity_witness :
    (insert (3 : Nat) (fromList [1, 2])).2 = true ↔ 3 ∉ inorder (fromList [1, 2]) :=
  claim5_insert_return_parity 3 (fromList [1, 2]) (by decide)

/-- Claim C6: on every tree satisfying the BST-order invariant the explicit
stack iterator yields exactly the sequence of the naive recursive in-order
walk, and on every set built by a sequence of inserts that sequence is
strictly ascending. -/
theorem claim6_iterator_inorder {T : Type} [LinearOrder T] (t : AvlTree T) (l : List T)
    (_hbst : isBST t = true) :
    iterAll t = inorder t ∧ List.Pairwise (· < ·) (iterAll (fromList l)) := by
  refine ⟨iterAll_eq_inorder t, ?_⟩
  rw [iterAll_eq_inorder]
  exact pairwise_lt_inorder _ (isBST_fromList l)

/-- Witness for claim C6 at a concrete input. -/
theorem claim6_iterator_inorder_witness :
    iterAll (fromList ([2, 1, 3] : List Nat)) = inorder (fromList ([2, 1, 3] : List Nat)) ∧
      List.Pairwise (· < ·) (iterAll (fromList ([5, 3, 8, 1] : List Nat))) :=
  claim6_iterator_inorder (fromList ([2, 1, 3] : List Nat)) [5, 3, 8, 1] (by decide)

/-- Claim C7: `rebalance` follows the standard AVL decision table: at factor
−2 it rotates the right child right when that child's factor is +1 and then
rotates the node left; at factor +2 symmetrically; at −1, 0, +1 it leaves the
node unchanged and reports it did nothing. -/
theorem claim7_rebalance_table {T : Type} (v : T) (l r : AvlTree T) (h : Nat) :
    (balanceFactor (node v l r h) = -2 → r ≠ nil →
      rebalance (node v l r h)
        = some ((rotateLeft (node v l
            (if balanceFactor r = 1 then (rotateRight r).1 else r) h)).1, true)) ∧
    (balanceFactor (node v l r h) = 2 → l ≠ nil →
      rebalance (node v l r h)
        = some ((rotateRight (node v
            (if balanceFactor l = -1 then (rotateLeft l).1 else l) r h)).1, true)) ∧
    ((balanceFactor (node v l r h) = -1 ∨ balanceFactor (node v l r h) = 0 ∨
        balanceFactor (node v l r h) = 1) →
      rebalance (node v l r h) = some (node v l r h, false)) := by
  refine ⟨?_, ?_, ?_⟩
  · intro hbf hr
    cases r with
    | nil => exact absurd rfl hr
    | node rv rl rr rh => simp [rebalance, hbf]
  · intro hbf hl
    cases l with
    | nil => exact absurd rfl hl
    | node lv ll lr lh =>
        have hne : (-2 : Int) ≠ 2 := by omega
        simp [rebalance, hbf]
  · intro hbf
    have h1 : balanceFactor (node v l r h) ≠ -2 := by rcases hbf with h | h | h <;> omega
    have h2 : balanceFactor (node v l r h) ≠ 2 := by rcases hbf with h | h | h <;> omega
    simp [rebalance, h1, h2]

/-- Witness for claim C7 at concrete inputs: a right-heavy node, a left-heavy
node, and a balanced node. -/
theorem claim7_rebalance_table_witness :
    (rebalance (node (2 : Nat) nil (node 3 nil (node 4 nil nil 0) 2) 1)
        = some ((rotateLeft (node (2 : Nat) nil
            (if balanceFactor (node (3 : Nat) nil (node 4 nil nil 0) 2) = 1
             then (rotateRight (node (3 : Nat) nil (node 4 nil nil 0) 2)).1
             else node (3 : Nat) nil (node 4 nil nil 0) 2) 1)).1, true)) ∧
    (rebalance (node (4 : Nat) (node 3 (node 2 nil nil 0) nil 2) nil 1)
        = some ((rotateRight (node (4 : Nat)
            (if balanceFactor (node (3 : Nat) (node 2 nil nil 0) nil 2) = -1
             then (rotateLeft (node (3 : Nat) (node 2 nil nil 0) nil 2)).1
             else node (3 : Nat) (node 2 nil nil 0) nil 2) nil 1)).1, true)) ∧
    rebalance (node (2 : Nat) (node 1 nil nil 0) (node 3 nil nil 0) 1)
        = some (node (2 : Nat) (node 1 nil nil 0) (node 3 nil nil 0) 1, false) :=
  ⟨(claim7_rebalance_table 2 nil (node 3 nil (node 4 nil nil 0) 2) 1).1
      (by decide) (by decide),
   (claim7_rebalance_table 4 (node 3 (node 2 nil nil 0) nil 2) nil 1).2.1
      (by decide) (by decide),
   (claim7_rebalance_table 2 (node 1 nil nil 0) (node 3 nil nil 0) 1).2.2
      (by decide)⟩

/-- Claim C8: `rotate_left` on a node with no right child returns `false` and
leaves the node unchanged, `rotate_right` does the same with no left child,
and in every other case each returns `true`. -/
theorem claim8_rotation_guards {T : Type} (v : T) (l r : AvlTree T) (h : Nat) :
    rotateLeft (node v l nil h) = (node v l nil h, false) ∧
    rotateRight (node v nil r h) = (node v nil r h, false) ∧
    (r ≠ nil → (rotateLeft (node v l r h)).2 = true) ∧
    (l ≠ nil → (rotateRight (node v l r h)).2 = true) := by
  refine ⟨rfl, rfl, ?_, ?_⟩
  · intro hr
    cases r with
    | nil => exact absurd rfl hr
    | node rv rl rr rh => rfl
  · intro hl
    cases l with
    | nil => exact absurd rfl hl
    | node lv ll lr lh => rfl

/-- Witness for claim C8 at a concrete input. -/
theorem claim8_rotation_guards_witness :
    rotateLeft (node (1 : Nat) (node 0 nil nil 0) nil 1)
        = (node (1 : Nat) (node 0 nil nil 0) nil 1, false) ∧
    rotateRight (node (1 : Nat) nil (node 2 nil nil 0) 1)
        = (node (1 : Nat) nil (node 2 nil nil 0) 1, false) ∧
    (rotateLeft (node (1 : Nat) (node 0 nil nil 0) (node 2 nil nil 0) 1)).2 = true ∧
    (rotateRight (node (1 : Nat) (node 0 nil nil 0) (node 2 nil nil 0) 1)).2 = true :=
  ⟨(claim8_rotation_guards 1 (node 0 nil nil 0) (node 2 nil nil 0) 1).1,
   (claim8_rotation_guards 1 (node 0 nil nil 0) (node 2 nil nil 0) 1).2.1,
   (claim8_rotation_guards 1 (node 0 nil nil 0) (node 2 nil nil 0) 1).2.2.1 (by decide),
   (claim8_rotation_guards 1 (node 0 nil nil 0) (node 2 nil nil 0) 1).2.2.2 (by decide)⟩

/-- Claim C9: inserting a value that is not yet a member changes the tree only
by grafting one fresh leaf (height field 0, no children) at the empty position
reached by the binary-search walk; the rest of the tree, in particular every
preexisting node's value and cached height, is untouched. -/
theorem claim9_insert_frame {T : Type} [LinearOrder T] (x : T) (t : AvlTree T)
    (_ht : isBST t = true) (hx : x ∉ inorder t) :
    subtreeAt t (searchPath x t) = some nil ∧
    (insert x t).1 = replaceAt t (searchPath x t) (node x nil nil 0) ∧
    ∀ q i, nodeInfoAt t q = some i → nodeInfoAt ((insert x t).1) q = some i := by
  have hs := insert_snd_true_of_not_mem x t hx
  obtain ⟨h1, h2⟩ := insert_replaceAt x t hs
  refine ⟨h1, h2, ?_⟩
  intro q i hq
  rw [h2]
  exact nodeInfoAt_replaceAt _ t _ q i h1 hq

/-- Witness for claim C9 at a concrete input. -/
theorem claim9_insert_frame_witness :
    subtreeAt (fromList ([2, 1] : List Nat)) (searchPath 3 (fromList [2, 1]))
        = some nil ∧
    (insert (3 : Nat) (fromList [2, 1])).1
        = replaceAt (fromList [2, 1]) (searchPath 3 (fromList [2, 1])) (node 3 nil nil 0) ∧
    ∀ q i, nodeInfoAt (fromList ([2, 1] : List Nat)) q = some i →
      nodeInfoAt ((insert (3 : Nat) (fromList [2, 1])).1) q = some i :=
  claim9_insert_frame 3 (fromList [2, 1]) (by decide) (by decide)

/-- Claim C10 as stated is false: with every cached height correct, a left
chain of 256 nodes has `left_height − right_height = 254`, which the `as i8`
cast truncates to −2, yet there is no right child. -/
theorem claim10_counterexample :
    heightsCorrect (chainL 256) = true ∧ balanceFactor (chainL 256) = -2 ∧
      rightOf (chainL 256) = nil :=
  ⟨heightsCorrect_chainL 256, by decide, by decide⟩

/-- Claim C10, amended: for every node whose cached heights are correct and
whose children's cached heights differ by at most 253 (so the `i8` cast cannot
wrap), a balance factor of −2 implies the right child exists and +2 implies
the left child exists, so the `unwrap()` calls in `rebalance` cannot fail. -/
theorem claim10_amended {T : Type} (v : T) (l r : AvlTree T) (h : Nat)
    (hc : heightsCorrect (node v l r h) = true)
    (hb1 : heightOf l ≤ heightOf r + 253) (hb2 : heightOf r ≤ heightOf l + 253) :
    (balanceFactor (node v l r h) = -2 → r ≠ nil) ∧
    (balanceFactor (node v l r h) = 2 → l ≠ nil) := by
  constructor
  · intro hbf hrnil
    subst hrnil
    simp only [balanceFactor, heightOf, Nat.le_zero, Nat.zero_le, if_pos,
      Nat.sub_zero] at hbf
    rw [castI8_eq_neg_two] at hbf
    simp only [heightOf] at hb1
    omega
  · intro hbf hlnil
    subst hlnil
    cases r with
    | nil =>
        simp only [balanceFactor, heightOf, castI8] at hbf
        omega
    | node rv rl rr rh =>
        simp only [balanceFactor, heightOf] at hbf
        simp only [heightOf] at hb2
        by_cases hz : rh ≤ 0
        · rw [if_pos hz] at hbf
          rw [castI8_eq_two] at hbf
          omega
        · rw [if_neg hz] at hbf
          rw [negI8_eq_two, castI8_eq_neg_two] at hbf
          omega

/-- Witness for the amended claim C10 at a concrete input. -/
theorem claim10_amended_witness :
    (balanceFactor (node (5 : Nat) (node 3 nil nil 0) (node 7 nil nil 0) 1) = -2 →
      (node (7 : Nat) nil nil 0) ≠ nil) ∧
    (balanceFactor (node (5 : Nat) (node 3 nil nil 0) (node 7 nil nil 0) 1) = 2 →
      (node (3 : Nat) nil nil 0) ≠ nil) :=
  claim10_amended 5 (node 3 nil nil 0) (node 7 nil nil 0) 1
    (by decide) (by decide) (by decide)

end AvlTree

end AvlVerify
